import Mathlib

/-!
Shallow embedding of the RPN register engine of `src/cpu.rs` (`Hp16cCpu`).

Registers are Rust `u128` values, modelled as `Nat` with explicit `% 2 ^ 128`
wherever the Rust code wraps (`wrapping_add`, `wrapping_sub`,
`overflowing_mul`, left shift).  The `pc`, `rom` and `running` fields of the
Rust struct are never read or written by any of the arithmetic, stack,
bitwise, shift, memory or configuration operations modelled here, so they are
omitted from the state.  The ROM loader performs file IO and is outside the
arithmetic core.

Rust shift operations whose shift amount reaches the bit width are overflow
errors (the program panics in a debug build); those operations are modelled
as `Option`-returning, with `none` exactly on the panicking inputs.
-/

structure Hp16cCpu where
  x : Nat
  y : Nat
  z : Nat
  t : Nat
  word_size : Nat
  base : Nat
  carry : Bool
  overflow : Bool
  memory : List Nat
deriving Repr, DecidableEq

namespace Hp16cCpu

/-- `Hp16cCpu::new`: zeroed stack and memory, word size 16, base 16. -/
def new : Hp16cCpu :=
  { x := 0, y := 0, z := 0, t := 0, word_size := 16, base := 16,
    carry := false, overflow := false, memory := List.replicate 16 0 }

/-- `Hp16cCpu::mask_value`.  The Rust method reads only `self.word_size`, so it
is embedded as a function of the word size and the value.  `u64::MAX as u128`
is `2 ^ 64 - 1`. -/
def mask_value (word_size value : Nat) : Nat :=
  if word_size = 128 then value
  else if word_size = 64 then value &&& (2 ^ 64 - 1)
  else value &&& ((1 <<< word_size) - 1)

/-- `Hp16cCpu::push`. -/
def push (s : Hp16cCpu) (value : Nat) : Hp16cCpu :=
  { s with t := s.z, z := s.y, y := s.x, x := mask_value s.word_size value }

/-- `Hp16cCpu::pop`: returns the old `x` together with the shifted state. -/
def pop (s : Hp16cCpu) : Nat × Hp16cCpu :=
  (s.x, { s with x := s.y, y := s.z, z := s.t })

/-- `Hp16cCpu::drop`. -/
def drop (s : Hp16cCpu) : Hp16cCpu :=
  { s with x := s.y, y := s.z, z := s.t }

/-- `Hp16cCpu::swap_xy`. -/
def swap_xy (s : Hp16cCpu) : Hp16cCpu :=
  { s with x := s.y, y := s.x }

/-- `Hp16cCpu::roll_down`. -/
def roll_down (s : Hp16cCpu) : Hp16cCpu :=
  { s with x := s.y, y := s.z, z := s.t, t := s.x }

/-- `Hp16cCpu::roll_up`. -/
def roll_up (s : Hp16cCpu) : Hp16cCpu :=
  { s with t := s.z, z := s.y, y := s.x, x := s.t }

/-- `Hp16cCpu::add`: `wrapping_add` is addition modulo `2 ^ 128`; the carry is
computed from the wrapped result and the original operands, before the drop. -/
def add (s : Hp16cCpu) : Hp16cCpu :=
  let result := (s.x + s.y) % 2 ^ 128
  let s1 := drop { s with carry := decide (result < s.x ∨ result < s.y) }
  { s1 with x := mask_value s1.word_size result }

/-- `Hp16cCpu::subtract`: `wrapping_sub` on `u128` is `(y + 2^128 - x) % 2^128`
for in-range operands; the carry records the borrow `y < x`. -/
def subtract (s : Hp16cCpu) : Hp16cCpu :=
  let result := (s.y + 2 ^ 128 - s.x) % 2 ^ 128
  let s1 := drop { s with carry := decide (s.y < s.x) }
  { s1 with x := mask_value s1.word_size result }

/-- `Hp16cCpu::multiply`: `overflowing_mul` yields the product modulo `2 ^ 128`
and a flag set exactly when the true product does not fit in 128 bits. -/
def multiply (s : Hp16cCpu) : Hp16cCpu :=
  let result := s.x * s.y % 2 ^ 128
  let s1 := drop { s with carry := decide (2 ^ 128 ≤ s.x * s.y) }
  { s1 with x := mask_value s1.word_size result }

/-- `Hp16cCpu::divide`: for nonzero `x`, truncating division `y / x`, drop,
mask, clear carry; for `x = 0`, only the overflow flag is set. -/
def divide (s : Hp16cCpu) : Hp16cCpu :=
  if s.x ≠ 0 then
    let result := s.y / s.x
    let s1 := drop s
    { s1 with x := mask_value s1.word_size result, carry := false }
  else
    { s with overflow := true }

/-- `Hp16cCpu::and`: the raw (un-remasked) bitwise AND replaces the dropped
top of stack. -/
def and (s : Hp16cCpu) : Hp16cCpu :=
  let result := s.x &&& s.y
  let s1 := drop s
  { s1 with x := result }

/-- `Hp16cCpu::or`. -/
def or (s : Hp16cCpu) : Hp16cCpu :=
  let result := s.x ||| s.y
  let s1 := drop s
  { s1 with x := result }

/-- `Hp16cCpu::xor`. -/
def xor (s : Hp16cCpu) : Hp16cCpu :=
  let result := s.x ^^^ s.y
  let s1 := drop s
  { s1 with x := result }

/-- `Hp16cCpu::not`: `!x` on `u128` is the complement inside 128 bits,
i.e. `x ^^^ (2 ^ 128 - 1)` for `x < 2 ^ 128`, then masked. -/
def not (s : Hp16cCpu) : Hp16cCpu :=
  { s with x := mask_value s.word_size (s.x ^^^ (2 ^ 128 - 1)) }

/-- `Hp16cCpu::shift_left`: `x << positions` discards bits above bit 127
(hence the `% 2 ^ 128`); the carry looks at `x >> (word_size - positions)`.
The call is an overflow error (`none`) when `positions ≥ 128` (left shift by
the full width), when `positions > word_size` (`u8` subtraction underflow) or
when `word_size - positions ≥ 128` (right shift by the full width). -/
def shift_left (s : Hp16cCpu) (positions : Nat) : Option Hp16cCpu :=
  if 128 ≤ positions then none
  else if s.word_size < positions then none
  else if 128 ≤ s.word_size - positions then none
  else
    let result := (s.x <<< positions) % 2 ^ 128
    some { s with carry := decide (s.x >>> (s.word_size - positions) ≠ 0),
                  x := mask_value s.word_size result }

/-- `Hp16cCpu::shift_right`: carry collects the bits shifted out at the
bottom; `none` when `positions ≥ 128` (shift by the full width panics). -/
def shift_right (s : Hp16cCpu) (positions : Nat) : Option Hp16cCpu :=
  if 128 ≤ positions then none
  else
    some { s with carry := decide (s.x &&& ((1 <<< positions) - 1) ≠ 0),
                  x := s.x >>> positions }

/-- `Hp16cCpu::store`: out-of-range register indices are silently ignored. -/
def store (s : Hp16cCpu) (register : Nat) : Hp16cCpu :=
  if register < 16 then { s with memory := s.memory.set register s.x } else s

/-- `Hp16cCpu::recall`: pushes `memory[register]`, silently ignoring
out-of-range indices. -/
def «recall» (s : Hp16cCpu) (register : Nat) : Hp16cCpu :=
  if register < 16 then push s (s.memory.getD register 0) else s

/-- `Hp16cCpu::set_base`. -/
def set_base (s : Hp16cCpu) (b : Nat) : Hp16cCpu :=
  if b = 2 ∨ b = 8 ∨ b = 10 ∨ b = 16 then { s with base := b } else s

/-- `Hp16cCpu::set_word_size`: accepted sizes change `word_size` first and
then re-mask the four stack registers with the new size. -/
def set_word_size (s : Hp16cCpu) (size : Nat) : Hp16cCpu :=
  if 1 ≤ size ∧ size ≤ 128 then
    { s with word_size := size,
             x := mask_value size s.x, y := mask_value size s.y,
             z := mask_value size s.z, t := mask_value size s.t }
  else s

/-- The stack registers are all within the configured word size
(`[0, 2 ^ word_size - 1]`; for `word_size = 128` this is the full `u128`
range). -/
def StackMasked (s : Hp16cCpu) : Prop :=
  s.x < 2 ^ s.word_size ∧ s.y < 2 ^ s.word_size ∧
  s.z < 2 ^ s.word_size ∧ s.t < 2 ^ s.word_size

instance (s : Hp16cCpu) : Decidable (StackMasked s) := by
  unfold StackMasked; infer_instance

/-- All memory registers hold `u128`-representable values. -/
def MemOk (s : Hp16cCpu) : Prop :=
  ∀ v ∈ s.memory, v < 2 ^ 128

instance (s : Hp16cCpu) : Decidable (MemOk s) := by
  unfold MemOk; infer_instance

/-- For configured word sizes the mask is reduction modulo `2 ^ word_size`
(for `word_size = 128` the value is already in range, so the mask is the
identity, which coincides with `% 2 ^ 128`). -/
theorem mask_value_eq_mod (w v : Nat) (hw : w ≤ 128) (hv : v < 2 ^ 128) :
    mask_value w v = v % 2 ^ w := by
  unfold mask_value
  by_cases h128 : w = 128
  · subst h128
    rw [if_pos rfl, Nat.mod_eq_of_lt hv]
  · rw [if_neg h128]
    by_cases h64 : w = 64
    · subst h64
      rw [if_pos rfl]
      exact Nat.and_pow_two_sub_one_eq_mod v 64
    · rw [if_neg h64, Nat.one_shiftLeft]
      exact Nat.and_pow_two_sub_one_eq_mod v w

/-- Masked values fit in the configured word size. -/
theorem mask_value_lt (w v : Nat) (hw : w ≤ 128) (hv : v < 2 ^ 128) :
    mask_value w v < 2 ^ w := by
  rw [mask_value_eq_mod w v hw hv]
  exact Nat.mod_lt _ (pow_pos (by norm_num) w)

/-- A `getD` read from a list of bounded values is bounded. -/
theorem getD_lt_of_mem_lt : ∀ (l : List Nat) (n B : Nat), 0 < B →
    (∀ v ∈ l, v < B) → l.getD n 0 < B := by
  intro l
  induction l with
  | nil =>
    intro n B hB _
    simpa [List.getD] using hB
  | cons a l ih =>
    intro n B hB h
    cases n with
    | zero => exact h a (List.mem_cons_self a l)
    | succ n => exact ih n B hB (fun v hv => h v (List.mem_cons_of_mem a hv))

/-- C1: the call sequence `push(0); push(5); divide()` on a fresh engine is
claimed to end with `overflow = true` and `y = 5`.  It does not: `divide`
computes `y / x`, and after these two pushes `x = 5`, `y = 0`, so the
division `0 / 5` succeeds, leaving `overflow = false` and dropping the stack
to `y = 0`. -/
theorem c1_push0_push5_divide_no_overflow :
    (divide (push (push new 0) 5)).overflow = false ∧
    (divide (push (push new 0) 5)).y = 0 ∧
    (divide (push (push new 0) 5)).carry = false := by decide

/-- C1 (amended): with the push order reversed — `push(5); push(0);
divide()` — the engine ends with `overflow = true` and the stack unchanged
by the divide, with `x = 0` and `y = 5`. -/
theorem c1_push5_push0_divide_overflow :
    divide (push (push new 5) 0) = { push (push new 5) 0 with overflow := true } ∧
    (push (push new 5) 0).x = 0 ∧ (push (push new 5) 0).y = 5 := by decide

/-- C2: on every state with `x = 0`, `divide` only sets `overflow` and leaves
the stack registers (and everything else) untouched; on every state with
`x ≠ 0` it drops the stack, puts the masked truncating quotient `y / x` into
`x` and clears `carry`. -/
theorem c2_divide_cases (s : Hp16cCpu) :
    divide s =
      if s.x = 0 then { s with overflow := true }
      else { s with x := mask_value s.word_size (s.y / s.x),
                    y := s.z, z := s.t, carry := false } := by
  by_cases h : s.x = 0 <;> simp [divide, drop, h]

/-- C3: for every configured word size `w` in `[1,128]` and every 128-bit
value `v`, `setWordSize(w)` followed by `push(v)` leaves `x = v mod 2 ^ w`
(for `w = 128` the value is stored unmasked, which for a 128-bit value
coincides with `v mod 2 ^ 128`). -/
theorem c3_set_word_size_push_masks (s : Hp16cCpu) (w v : Nat)
    (hw1 : 1 ≤ w) (hw2 : w ≤ 128) (hv : v < 2 ^ 128) :
    (push (set_word_size s w) v).x = v % 2 ^ w := by
  have hacc : 1 ≤ w ∧ w ≤ 128 := ⟨hw1, hw2⟩
  simp only [push, set_word_size, if_pos hacc]
  exact mask_value_eq_mod w v hw2 hv

/-- C3 witness: word size 4 and value 32 give `x = 32 mod 16 = 0`. -/
theorem c3_witness :
    1 ≤ 4 ∧ 4 ≤ 128 ∧ 32 < 2 ^ 128 ∧ (push (set_word_size new 4) 32).x = 32 % 2 ^ 4 :=
  ⟨by decide, by decide, by decide,
    c3_set_word_size_push_masks new 4 32 (by decide) (by decide) (by decide)⟩

/-- C5: `add` drops the stack (`y ← z`, `z ← t`, `t` kept), puts the masked
wrapped sum into `x`, and sets `carry` exactly when the wrapped 128-bit sum
is numerically below one of the operands. -/
theorem c5_add_wraps_drops_and_detects_carry (s : Hp16cCpu) :
    (add s).x = mask_value s.word_size ((s.x + s.y) % 2 ^ 128) ∧
    (add s).y = s.z ∧ (add s).z = s.t ∧ (add s).t = s.t ∧
    ((add s).carry = true ↔
      ((s.x + s.y) % 2 ^ 128 < s.x ∨ (s.x + s.y) % 2 ^ 128 < s.y)) := by
  simp [add, drop]

/-- C7: `setWordSize` is a silent no-op on every size outside `[1,128]`;
an accepted size is installed and the four stack registers are re-masked to
it, with the memory registers (and every other field) untouched. -/
theorem c7_set_word_size_validation (s : Hp16cCpu) (size : Nat) :
    set_word_size s size =
      if size < 1 ∨ 128 < size then s
      else { s with word_size := size,
                    x := mask_value size s.x, y := mask_value size s.y,
                    z := mask_value size s.z, t := mask_value size s.t } := by
  unfold set_word_size
  split <;> split
  · exfalso; omega
  · rfl
  · rfl
  · exfalso; omega

/-- C9: `rollDown` applied four times is the identity on the whole engine
state, and so is `rollUp` applied four times. -/
theorem c9_roll_four_is_identity (s : Hp16cCpu) :
    roll_down (roll_down (roll_down (roll_down s))) = s ∧
    roll_up (roll_up (roll_up (roll_up s))) = s := by
  cases s
  exact ⟨rfl, rfl⟩

/-- C10: division by zero (`x = 0`) sets `overflow` and modifies nothing
else: `carry` keeps its previous value, and word size, base, memory and the
four stack registers are unchanged. -/
theorem c10_divide_by_zero_frame (s : Hp16cCpu) (h : s.x = 0) :
    (divide s).overflow = true ∧
    (divide s).carry = s.carry ∧
    (divide s).word_size = s.word_size ∧
    (divide s).base = s.base ∧
    (divide s).memory = s.memory ∧
    (divide s).x = s.x ∧ (divide s).y = s.y ∧
    (divide s).z = s.z ∧ (divide s).t = s.t := by
  simp [divide, h]

/-- A concrete division-by-zero state whose carry flag is set, used to
exhibit that `divide` preserves it. -/
def carrySetState : Hp16cCpu := { new with carry := true, y := 7 }

/-- C10 witness: on a state with `x = 0`, `carry = true` and `y = 7`,
`divide` keeps `carry = true` and the whole frame. -/
theorem c10_witness :
    carrySetState.x = 0 ∧
    ((divide carrySetState).overflow = true ∧
     (divide carrySetState).carry = carrySetState.carry ∧
     (divide carrySetState).word_size = carrySetState.word_size ∧
     (divide carrySetState).base = carrySetState.base ∧
     (divide carrySetState).memory = carrySetState.memory ∧
     (divide carrySetState).x = carrySetState.x ∧
     (divide carrySetState).y = carrySetState.y ∧
     (divide carrySetState).z = carrySetState.z ∧
     (divide carrySetState).t = carrySetState.t) :=
  ⟨by decide, c10_divide_by_zero_frame carrySetState (by decide)⟩

/-- C4: at a configured word size below 128, adding two already-masked
operands whose true sum overflows the word size but not the native 128-bit
width leaves `carry = false`: carry detection happens at the native width
only. -/
theorem c4_add_carry_is_native_width_only (s : Hp16cCpu)
    (_hw1 : 1 ≤ s.word_size) (_hw : s.word_size < 128)
    (_hx : s.x < 2 ^ s.word_size) (_hy : s.y < 2 ^ s.word_size)
    (_hsum : 2 ^ s.word_size ≤ s.x + s.y) (hnat : s.x + s.y < 2 ^ 128) :
    (add s).carry = false := by
  simp only [add, drop, decide_eq_false_iff_not, not_or, not_lt]
  rw [Nat.mod_eq_of_lt hnat]
  exact ⟨Nat.le_add_right s.x s.y, Nat.le_add_left s.y s.x⟩

/-- C4 witness: at word size 4 the masked operands 9 and 8 overflow 4 bits
(9 + 8 = 17 ≥ 16) yet `add` reports no carry. -/
theorem c4_witness :
    (add { new with word_size := 4, x := 9, y := 8 }).carry = false :=
  c4_add_carry_is_native_width_only { new with word_size := 4, x := 9, y := 8 }
    (by decide) (by decide) (by decide) (by decide) (by decide) (by decide)

/-- C8: the claim quantifies over every shift count `n < wordSize`, but at
`wordSize = 128` with `n = 0` the carry computation right-shifts a `u128` by
128 bits, which is a shift overflow — the engine panics instead of producing
the described result. -/
theorem c8_counterexample :
    shift_left { new with word_size := 128, x := 1 } 0 = none := by decide

/-- C8 (amended): for every shift count `n < wordSize` with
`wordSize - n < 128` (the sole exclusion being `n = 0` at `wordSize = 128`),
`shiftLeft(n)` sets `carry` to true exactly when the pre-shift
`x >> (wordSize - n)` is nonzero, sets `x` to the masked left shift, and
leaves `y`, `z`, `t` (and everything but `carry` and `x`) untouched. -/
theorem c8_shift_left_spec (s : Hp16cCpu) (n : Nat)
    (hn : n < s.word_size) (hw : s.word_size ≤ 128)
    (hb : s.word_size - n < 128) :
    shift_left s n =
      some { s with carry := decide (s.x >>> (s.word_size - n) ≠ 0),
                    x := mask_value s.word_size ((s.x <<< n) % 2 ^ 128) } := by
  have h1 : ¬ 128 ≤ n := by omega
  have h2 : ¬ s.word_size < n := by omega
  have h3 : ¬ 128 ≤ s.word_size - n := by omega
  simp only [shift_left, if_neg h1, if_neg h2, if_neg h3]

/-- C8 witness: the spec example — word size 8, `x = 0x81`, `shiftLeft(1)`
gives `carry = true` and `x = 0x02`. -/
theorem c8_witness :
    shift_left { new with word_size := 8, x := 0x81 } 1 =
      some { new with word_size := 8, x := 2, carry := true } :=
  (c8_shift_left_spec { new with word_size := 8, x := 0x81 } 1
    (by decide) (by decide) (by decide)).trans (by decide)

/-- C6: every state-mutating public operation of the engine keeps the four
stack registers inside `[0, 2 ^ word_size - 1]`, provided the word size is a
configured one, the stack is masked and memory holds 128-bit values; in
particular the raw results of `and`/`or`/`xor` stay in range because the
operands were masked. -/
theorem c6_ops_preserve_stack_masked (s : Hp16cCpu)
    (_hw1 : 1 ≤ s.word_size) (hw2 : s.word_size ≤ 128)
    (hm : StackMasked s) (hmem : MemOk s) :
    (∀ v, v < 2 ^ 128 → StackMasked (push s v)) ∧
    StackMasked (pop s).2 ∧
    StackMasked (drop s) ∧
    StackMasked (swap_xy s) ∧
    StackMasked (roll_down s) ∧
    StackMasked (roll_up s) ∧
    StackMasked (add s) ∧
    StackMasked (subtract s) ∧
    StackMasked (multiply s) ∧
    StackMasked (divide s) ∧
    StackMasked (and s) ∧
    StackMasked (or s) ∧
    StackMasked (xor s) ∧
    StackMasked (not s) ∧
    (∀ n s1, shift_left s n = some s1 → StackMasked s1) ∧
    (∀ n s1, shift_right s n = some s1 → StackMasked s1) ∧
    (∀ r, StackMasked (store s r)) ∧
    (∀ r, StackMasked («recall» s r)) ∧
    (∀ b, StackMasked (set_base s b)) ∧
    (∀ w, StackMasked (set_word_size s w)) := by
  obtain ⟨hx, hy, hz, ht⟩ := hm
  have hpow : (2:Nat) ^ s.word_size ≤ 2 ^ 128 :=
    Nat.pow_le_pow_right (by norm_num) hw2
  have hx1 : s.x < 2 ^ 128 := lt_of_lt_of_le hx hpow
  have hy1 : s.y < 2 ^ 128 := lt_of_lt_of_le hy hpow
  have hz1 : s.z < 2 ^ 128 := lt_of_lt_of_le hz hpow
  have ht1 : s.t < 2 ^ 128 := lt_of_lt_of_le ht hpow
  have hmod : ∀ a : Nat, a % 2 ^ 128 < 2 ^ 128 :=
    fun a => Nat.mod_lt _ (pow_pos (by norm_num) 128)
  refine ⟨?_, ?_, ?_, ?_, ?_, ?_, ?_, ?_, ?_, ?_,
          ?_, ?_, ?_, ?_, ?_, ?_, ?_, ?_, ?_, ?_⟩
  · intro v hv
    exact ⟨mask_value_lt _ _ hw2 hv, hx, hy, hz⟩
  · exact ⟨hy, hz, ht, ht⟩
  · exact ⟨hy, hz, ht, ht⟩
  · exact ⟨hy, hx, hz, ht⟩
  · exact ⟨hy, hz, ht, hx⟩
  · exact ⟨ht, hx, hy, hz⟩
  · exact ⟨mask_value_lt _ _ hw2 (hmod _), hz, ht, ht⟩
  · exact ⟨mask_value_lt _ _ hw2 (hmod _), hz, ht, ht⟩
  · exact ⟨mask_value_lt _ _ hw2 (hmod _), hz, ht, ht⟩
  · rcases Nat.eq_zero_or_pos s.x with hx0 | hx0
    · have hdiv : divide s = { s with overflow := true } := by
        simp [divide, hx0]
      rw [hdiv]
      exact ⟨hx, hy, hz, ht⟩
    · have hne : s.x ≠ 0 := Nat.pos_iff_ne_zero.mp hx0
      have hdiv : divide s =
          { s with x := mask_value s.word_size (s.y / s.x),
                   y := s.z, z := s.t, carry := false } := by
        simp [divide, drop, hne]
      rw [hdiv]
      exact ⟨mask_value_lt _ _ hw2
        (lt_of_le_of_lt (Nat.div_le_self _ _) hy1), hz, ht, ht⟩
  · exact ⟨Nat.and_lt_two_pow _ hy, hz, ht, ht⟩
  · exact ⟨Nat.or_lt_two_pow hx hy, hz, ht, ht⟩
  · exact ⟨Nat.xor_lt_two_pow hx hy, hz, ht, ht⟩
  · exact ⟨mask_value_lt _ _ hw2
      (Nat.xor_lt_two_pow hx1 (Nat.sub_lt (pow_pos (by norm_num) 128) one_pos)),
      hy, hz, ht⟩
  · intro n s1 hsome
    unfold shift_left at hsome
    split_ifs at hsome
    cases Option.some.inj hsome
    exact ⟨mask_value_lt _ _ hw2 (hmod _), hy, hz, ht⟩
  · intro n s1 hsome
    unfold shift_right at hsome
    split_ifs at hsome
    cases Option.some.inj hsome
    refine ⟨lt_of_le_of_lt ?_ hx, hy, hz, ht⟩
    rw [Nat.shiftRight_eq_div_pow]
    exact Nat.div_le_self _ _
  · intro r
    unfold store
    split
    · exact ⟨hx, hy, hz, ht⟩
    · exact ⟨hx, hy, hz, ht⟩
  · intro r
    unfold «recall»
    split
    · exact ⟨mask_value_lt _ _ hw2
        (getD_lt_of_mem_lt s.memory r _ (pow_pos (by norm_num) 128) hmem),
        hx, hy, hz⟩
    · exact ⟨hx, hy, hz, ht⟩
  · intro b
    unfold set_base
    split
    · exact ⟨hx, hy, hz, ht⟩
    · exact ⟨hx, hy, hz, ht⟩
  · intro w
    unfold set_word_size
    split
    · rename_i hc
      exact ⟨mask_value_lt _ _ hc.2 hx1, mask_value_lt _ _ hc.2 hy1,
             mask_value_lt _ _ hc.2 hz1, mask_value_lt _ _ hc.2 ht1⟩
    · exact ⟨hx, hy, hz, ht⟩

/-- C6 witness: on the freshly created engine, pushing 5 keeps the stack
masked. -/
theorem c6_witness : StackMasked (push new 5) :=
  (c6_ops_preserve_stack_masked new (by decide) (by decide)
    (by decide) (by decide)).1 5 (by decide)

end Hp16cCpu
